import Mathlib

/-!
Verification of the TurboStage data-merge tools: a shallow embedding of
`merge_submission.py` (JSON submission merge and hash verification) and
`import_database.py` (relational database import with identifier remapping),
together with theorems settling the specified properties.

Python dictionaries are modelled as insertion-ordered association lists;
lookups and in-place updates act on the first occurrence of a key, which
coincides with dictionary behaviour whenever keys are unique (as they always
are for dictionaries produced by the Python runtime).
-/

namespace TurboStage

/-- Decidable equality for `Except`, used to evaluate the embedded functions
at concrete inputs. -/
instance exceptDecEq {ε α : Type} [DecidableEq ε] [DecidableEq α] :
    DecidableEq (Except ε α) := fun x y =>
  match x, y with
  | .error a, .error b =>
    if h : a = b then .isTrue (by rw [h]) else .isFalse (fun he => h (by injection he))
  | .ok a, .ok b =>
    if h : a = b then .isTrue (by rw [h]) else .isFalse (fun he => h (by injection he))
  | .error _, .ok _ => .isFalse (fun he => Except.noConfusion he)
  | .ok _, .error _ => .isFalse (fun he => Except.noConfusion he)

/-- First-occurrence lookup in an association list (Python `d[k]` / `k in d`). -/
def alookup {α β : Type} [DecidableEq α] : List (α × β) → α → Option β
  | [], _ => none
  | (k, v) :: t, a => if k = a then some v else alookup t a

/-- In-place value replacement at the first occurrence of a key
(Python `d[k] = v` when `k` is already present: position preserved). -/
def aupdate {α β : Type} [DecidableEq α] : List (α × β) → α → β → List (α × β)
  | [], _, _ => []
  | (k, v) :: t, a, b => if k = a then (k, b) :: t else (k, v) :: aupdate t a b

/-- Python `d.update(e)`: keys already in `d` keep their position and take
`e`'s value; keys only in `e` are appended in `e`'s order. -/
def dictUpdate {α β : Type} [DecidableEq α] (d e : List (α × β)) : List (α × β) :=
  (d.map fun p => match alookup e p.1 with
    | some v => (p.1, v)
    | none => p)
  ++ e.filter fun q => (alookup d q.1).isNone

/-- Keys of an association list are pairwise distinct. -/
def nodupKeys {α β : Type} [DecidableEq α] (l : List (α × β)) : Prop :=
  (l.map Prod.fst).Nodup

instance {α β : Type} [DecidableEq α] (l : List (α × β)) : Decidable (nodupKeys l) :=
  inferInstanceAs (Decidable (l.map Prod.fst).Nodup)

/-- A key of the `games` mapping of the global catalog.  A catalog freshly
loaded from JSON has string keys; entries created by `merge_into_global`
use Python `int` keys.  Python treats `"5"` and `5` as distinct dict keys. -/
inductive GKey : Type
  | s (v : String)
  | i (v : Int)
deriving DecidableEq

/-- A version record of the JSON catalog: `executable` (read via
`ver.get("executable", "")`), the optional `hashes` sub-mapping (read via
`ver["hashes"]` on the target side and `ver.get("hashes", {})` on the
submission side), and all remaining fields kept opaque. -/
structure VRec : Type where
  executable : Option String
  hashes : Option (List (String × String))
  other : List (String × String)
deriving DecidableEq

/-- A game record: its `versions` mapping plus any remaining opaque fields.
`merge_into_global` creates fresh entries as `{"versions": {}}`. -/
structure GameRec : Type where
  versions : List (String × VRec)
  other : List (String × String)
deriving DecidableEq

/-- The `games` mapping of the global catalog (the merge normalises a
missing `games` key to `{}` before any access, so we embed the mapping
itself). -/
abbrev Catalog : Type := List (GKey × GameRec)

/-- The `games` mapping of a submission as loaded from JSON: keys are
strings. -/
abbrev Submission : Type := List (String × GameRec)

/-- Failure modes of `merge_into_global`: `ver["hashes"]` raising `KeyError`
when an existing target record has no `hashes` key, and `int(igdb_id_str)`
raising `ValueError` on a non-numeric key. -/
inductive MergeErr : Type
  | keyErrorHashes
  | valueErrorBadInt
deriving DecidableEq

/-- Accumulate decimal digits; any non-digit character fails. -/
def digitsToNat (acc : Nat) : List Char → Option Nat
  | [] => some acc
  | c :: cs => if c.isDigit then digitsToNat (acc * 10 + (c.toNat - 48)) cs else none

/-- Python `int(s)` on a JSON key: an optional leading minus followed by one
or more decimal digits; anything else raises `ValueError`, modelled by
`none`. -/
def pyInt (s : String) : Option Int :=
  match s.data with
  | [] => none
  | '-' :: [] => none
  | '-' :: c :: cs => (digitsToNat 0 (c :: cs)).map (fun n => -(n : Int))
  | cs => (digitsToNat 0 cs).map (fun n => (n : Int))

/-- One iteration of the inner version loop of `merge_into_global`: insert
the submitted record verbatim when the name is absent (counting it), else
union the `hashes` sub-mappings, submission values winning; `existing["hashes"]`
raises `KeyError` when the target record has no `hashes` key. -/
def mergeVersionStep (vs : List (String × VRec)) (n : String) (v : VRec) :
    Except MergeErr (List (String × VRec) × Nat) :=
  match alookup vs n with
  | none => .ok (vs ++ [(n, v)], 1)
  | some r =>
    match r.hashes with
    | none => .error .keyErrorHashes
    | some h =>
      .ok (aupdate vs n { r with hashes := some (dictUpdate h (v.hashes.getD [])) }, 0)

/-- The inner version loop of `merge_into_global` over one submitted game's
`versions` items, threading the target's versions mapping and the new-version
count. -/
def mergeVersions (vs : List (String × VRec)) :
    List (String × VRec) → Except MergeErr (List (String × VRec) × Nat)
  | [] => .ok (vs, 0)
  | (n, v) :: rest =>
    match mergeVersionStep vs n v with
    | .error e => .error e
    | .ok (vs1, k) =>
      match mergeVersions vs1 rest with
      | .error e => .error e
      | .ok (vs2, k2) => .ok (vs2, k + k2)

/-- One iteration of the outer game loop of `merge_into_global`: convert the
key with `int`, create an empty entry `{"versions": {}}` under the int key
when absent, then run the version loop on that entry. -/
def mergeGameStep (c : Catalog) (kStr : String) (g : GameRec) :
    Except MergeErr (Catalog × Nat) :=
  match pyInt kStr with
  | none => .error .valueErrorBadInt
  | some ki =>
    match alookup c (GKey.i ki) with
    | some tg =>
      match mergeVersions tg.versions g.versions with
      | .error e => .error e
      | .ok (vs, k) => .ok (aupdate c (GKey.i ki) { tg with versions := vs }, k)
    | none =>
      match mergeVersions [] g.versions with
      | .error e => .error e
      | .ok (vs, k) => .ok (c ++ [(GKey.i ki, { versions := vs, other := [] })], k)

/-- `merge_into_global` of `merge_submission.py`, acting on the (normalised)
`games` mapping of the global catalog and returning the updated mapping
together with `merged_count`. -/
def merge_into_global (c : Catalog) :
    Submission → Except MergeErr (Catalog × Nat)
  | [] => .ok (c, 0)
  | (kStr, g) :: rest =>
    match mergeGameStep c kStr g with
    | .error e => .error e
    | .ok (c1, k) =>
      match merge_into_global c1 rest with
      | .error e => .error e
      | .ok (c2, k2) => .ok (c2, k + k2)

/-! ### Well-formed submissions

A submission is produced by `json.loads`, so every mapping in it has unique
keys, and the documented catalog format requires each version record to carry
a `hashes` mapping.  External game ids render to distinct key strings. -/

/-- A submitted version record carries a `hashes` mapping with distinct
keys. -/
def vrecWF (v : VRec) : Bool :=
  match v.hashes with
  | none => false
  | some h => decide (nodupKeys h)

/-- A game's submitted versions mapping has distinct names and well-formed
records. -/
def versionsWF (svs : List (String × VRec)) : Bool :=
  decide (nodupKeys svs) && svs.all fun p => vrecWF p.2

/-- A submission's game keys parse to pairwise distinct integers and its
versions are well-formed. -/
def submissionWF (s : Submission) : Bool :=
  decide ((s.map fun p => pyInt p.1).Nodup) && s.all fun p => versionsWF p.2.versions

/-- Replace the `hashes` field of a version record (Python
`existing["hashes"] = ...` seen as a record update). -/
def setHashes (v : VRec) (hs : List (String × String)) : VRec :=
  { v with hashes := some hs }

/-- Replace the `versions` field of a game record. -/
def setVersions (g : GameRec) (vs : List (String × VRec)) : GameRec :=
  { g with versions := vs }

/-- Does a catalog key denote the external identifier `n`?  The string key
form denotes the id its digits parse to. -/
def keyDenotes (k : GKey) (n : Int) : Bool :=
  match k with
  | .s str => decide (pyInt str = some n)
  | .i m => decide (m = n)

/-! ### Hash verification (`verify_submission` of `merge_submission.py`)

The archive scan (`find_legal_archive` over `ARCHIVE_ROOT.rglob`), the digest
computation (`md5_of_file_in_zip`) and the `pathlib` parent-directory
extraction are external collaborators (filesystem and hashing); they enter the
model as oracle functions `locate`, `hashOf` and `dirPart`.  `hashOf a f = none`
models the `KeyError` raised when the inner entry `f` is missing from the
archive `a`. -/

/-- The archive hint derived from a version record: the parent directory of
its `executable` (oracle `dirPart`), with Python's `dir_part or "unknown"`
fallback for the empty string. -/
def hintOf (dirPart : String → String) (v : VRec) : String :=
  let d := dirPart (v.executable.getD "")
  if d = "" then "unknown" else d

/-- The per-version body of `verify_submission`: `False` when no legal
archive is located (the hash loop is skipped via `continue`); otherwise every
(inner-file, expected-digest) pair must yield a matching digest, a missing
entry or a differing digest making the version fail. -/
def verifyVersion {A : Type} (dirPart : String → String) (locate : String → Option A)
    (hashOf : A → String → Option String) (v : VRec) : Bool :=
  match locate (hintOf dirPart v) with
  | none => false
  | some a => (v.hashes.getD []).all fun t => decide (hashOf a t.1 = some t.2)

/-- `verify_submission` of `merge_submission.py`: `ok` starts `True` and is
set to `False` by any unfound archive, digest mismatch or missing inner
entry, the loops always running to completion. -/
def verify_submission {A : Type} (dirPart : String → String) (locate : String → Option A)
    (hashOf : A → String → Option String) (s : Submission) : Bool :=
  s.foldl
    (fun ok g =>
      g.2.versions.foldl (fun ok2 v => ok2 && verifyVersion dirPart locate hashOf v.2) ok)
    true

/-! ### Relational import (`import_database.py`)

Source tables are embedded as lists of rows; the target store's tables carry
their rows together with the next auto-increment identifier, so that an
insert both appends the row and assigns it a fresh `id`. -/

/-- A row of the `games` table: its primary key, its `igdb_id` column (which
the schema allows to be NULL) and the remaining columns kept opaque. -/
structure GameRow : Type where
  id : Int
  igdb_id : Option Int
  rest : List String
deriving DecidableEq

/-- The target `games` table with its auto-increment state. -/
structure GamesTable : Type where
  rows : List GameRow
  nextId : Int
deriving DecidableEq

/-- A row of the `versions` table: primary key, `game_id` foreign key, and
the remaining columns kept opaque. -/
structure VersionRow : Type where
  id : Int
  game_id : Int
  rest : List String
deriving DecidableEq

/-- The target `versions` table with its auto-increment state. -/
structure VersionsTable : Type where
  rows : List VersionRow
  nextId : Int
deriving DecidableEq

/-- A row of a child table (`hashes` or `config_files`): primary key,
`version_id` foreign key, and the remaining columns of type `α`. -/
structure ChildRow (α : Type) : Type where
  id : Int
  version_id : Int
  rest : α
deriving DecidableEq

/-- A target child table with its auto-increment state. -/
structure ChildTable (α : Type) : Type where
  rows : List (ChildRow α)
  nextId : Int
deriving DecidableEq

/-- The loop of `copy_db_content`: skip a source game whose `igdb_id` is in
the set of identifiers already present (updating that set on insert so the
source cannot duplicate itself), otherwise insert the row minus its `id`
(the target assigns `nextId`) and record `input_id -> new_id` in the remap. -/
def copyGamesLoop : List GameRow → List (Option Int) → GamesTable →
    List (Int × Int) → Nat → GamesTable × List (Int × Int) × Nat
  | [], _, out, mapping, cnt => (out, mapping, cnt)
  | r :: rest, existing, out, mapping, cnt =>
    if r.igdb_id ∈ existing then
      copyGamesLoop rest existing out mapping cnt
    else
      copyGamesLoop rest (r.igdb_id :: existing)
        { rows := out.rows ++ [{ r with id := out.nextId }], nextId := out.nextId + 1 }
        (mapping ++ [(r.id, out.nextId)]) (cnt + 1)

/-- `copy_db_content` of `import_database.py`: deduplicate source games
against the target's `igdb_id` column and return the updated table, the
game-id remap and the inserted count. -/
def copy_db_content (inputRows : List GameRow) (out : GamesTable) :
    GamesTable × List (Int × Int) × Nat :=
  copyGamesLoop inputRows (out.rows.map (fun r => r.igdb_id)) out [] 0

/-- The loop of `copy_versions` over the fetched rows: a row whose `game_id`
is not a remap key raises `RuntimeError(f"Game ID ... not found.")`;
otherwise the row is inserted with `game_id` rewritten and a fresh `id`, and
`input_version_id -> new_version_id` is recorded. -/
def copyVersionsLoop : List VersionRow → List (Int × Int) → VersionsTable →
    List (Int × Int) → Nat → Except String (VersionsTable × List (Int × Int) × Nat)
  | [], _, out, vmap, cnt => .ok (out, vmap, cnt)
  | r :: rest, mapping, out, vmap, cnt =>
    match alookup mapping r.game_id with
    | none => .error (toString r.game_id)
    | some ng =>
      copyVersionsLoop rest mapping
        { rows := out.rows ++ [{ r with id := out.nextId, game_id := ng }],
          nextId := out.nextId + 1 }
        (vmap ++ [(r.id, out.nextId)]) (cnt + 1)

/-- `copy_versions` of `import_database.py`: the SQL
`SELECT * FROM versions WHERE game_id IN (remap keys)` restricts the fetched
rows to those whose `game_id` is a remap key before the loop runs. -/
def copy_versions (inputRows : List VersionRow) (mapping : List (Int × Int))
    (out : VersionsTable) : Except String (VersionsTable × List (Int × Int) × Nat) :=
  copyVersionsLoop (inputRows.filter fun r => (alookup mapping r.game_id).isSome)
    mapping out [] 0

/-- The loop of `copy_table` over the fetched rows: the in-loop `continue`
for an unmapped `version_id`, else insert with `version_id` rewritten, the
original `id` dropped and a fresh target `id` assigned. -/
def copyTableLoop {α : Type} : List (ChildRow α) → List (Int × Int) →
    ChildTable α → Nat → ChildTable α × Nat
  | [], _, out, cnt => (out, cnt)
  | r :: rest, mapping, out, cnt =>
    match alookup mapping r.version_id with
    | none => copyTableLoop rest mapping out cnt
    | some nv =>
      copyTableLoop rest mapping
        { rows := out.rows ++ [{ r with id := out.nextId, version_id := nv }],
          nextId := out.nextId + 1 }
        (cnt + 1)

/-- `copy_table` of `import_database.py`: the SQL
`SELECT * FROM <table> WHERE version_id IN (remap keys)` restricts the
fetched rows before the loop; returns the updated table, the processed count
(`len(input_rows)`) and the inserted count. -/
def copy_table {α : Type} (inputRows : List (ChildRow α)) (mapping : List (Int × Int))
    (out : ChildTable α) : ChildTable α × Nat × Nat :=
  let fetched := inputRows.filter fun r => (alookup mapping r.version_id).isSome
  let res := copyTableLoop fetched mapping out 0
  (res.1, fetched.length, res.2)

/-- The `DB_VERSION` constant of `import_database.py`. -/
def DB_VERSION : String := "0.5.0"

/-- A source database: its four content tables plus the rows of the
`db_version` table (the `version` column values in row order). -/
structure SourceDb : Type where
  games : List GameRow
  versions : List VersionRow
  hashes : List (ChildRow (String × String))
  config_files : List (ChildRow (Int × String × String))
  db_version : List String
deriving DecidableEq

/-- A target database: its four content tables with auto-increment state,
plus the rows of the `db_version` table. -/
structure TargetDb : Type where
  games : GamesTable
  versions : VersionsTable
  hashes : ChildTable (String × String)
  config_files : ChildTable (Int × String × String)
  db_version : List String
deriving DecidableEq

/-- `initialize_database` of `import_database.py`: empty tables (SQLite
auto-increment starting at 1) and a single `db_version` row holding
`DB_VERSION`. -/
def initialize_database : TargetDb :=
  { games := { rows := [], nextId := 1 }
    versions := { rows := [], nextId := 1 }
    hashes := { rows := [], nextId := 1 }
    config_files := { rows := [], nextId := 1 }
    db_version := [DB_VERSION] }

/-- `get_database_version`: `SELECT version FROM db_version` followed by
`rows[0][0]`; an empty table raises `IndexError`, modelled by `none`. -/
def get_database_version (rows : List String) : Option String := rows.head?

/-- Failure modes of the import run: an empty `db_version` table
(`IndexError`), the version-mismatch abort of `main`, and the
`RuntimeError` of `copy_versions` naming a game id. -/
inductive ImportErr : Type
  | noDbVersion
  | versionMismatch (inp outp : String)
  | runtimeGameId (gid : String)
deriving DecidableEq

/-- The `try` block of `main`: games copy producing the game-id remap,
version copy producing the version-id remap, then the `hashes` and
`config_files` copies driven by that remap. -/
def copyAll (src : SourceDb) (out : TargetDb) : Except ImportErr TargetDb :=
  let gres := copy_db_content src.games out.games
  match copy_versions src.versions gres.2.1 out.versions with
  | .error s => .error (.runtimeGameId s)
  | .ok (vtab, vmap, _) =>
    let hres := copy_table src.hashes vmap out.hashes
    let cres := copy_table src.config_files vmap out.config_files
    .ok { games := gres.1, versions := vtab, hashes := hres.1,
          config_files := cres.1, db_version := out.db_version }

/-- `main` of `import_database.py` after argument parsing: read the source's
`db_version` first; when the destination file exists, compare the two
versions and abort on mismatch before any copy, otherwise create the
destination with `initialize_database`; then run the copies. -/
def mainModel (src : SourceDb) (dest : Option TargetDb) : Except ImportErr TargetDb :=
  match get_database_version src.db_version with
  | none => .error .noDbVersion
  | some vin =>
    match dest with
    | some o =>
      match get_database_version o.db_version with
      | none => .error .noDbVersion
      | some vout =>
        if vin = vout then copyAll src o
        else .error (.versionMismatch vin vout)
    | none => copyAll src initialize_database

/-- The rows a child-table copy appends for a run of already-filtered rows:
one row per source row, in order, with a fresh consecutive `id` starting at
`startId`, the `version_id` remapped, and the remaining columns kept. -/
def remapChildRows {α : Type} (mapping : List (Int × Int)) (startId : Int) :
    List (ChildRow α) → List (ChildRow α)
  | [] => []
  | r :: rest =>
    { id := startId, version_id := (alookup mapping r.version_id).getD 0,
      rest := r.rest } :: remapChildRows mapping (startId + 1) rest

/-- The rows the version copy appends for a run of already-filtered rows. -/
def remapVersionRows (mapping : List (Int × Int)) (startId : Int) :
    List VersionRow → List VersionRow
  | [] => []
  | r :: rest =>
    { id := startId, game_id := (alookup mapping r.game_id).getD 0,
      rest := r.rest } :: remapVersionRows mapping (startId + 1) rest

/-- The version-id remap produced by the version copy: each source row's id
maps to the consecutively assigned target id. -/
def versionIdRemap (startId : Int) : List VersionRow → List (Int × Int)
  | [] => []
  | r :: rest => (r.id, startId) :: versionIdRemap (startId + 1) rest

/-- The success condition stated by the specification for verification:
no digest mismatch and no missing inner entry occurred among the checked
(inner-file, expected-digest) pairs; a version whose archive is never
located contributes no checked pairs. -/
def noMismatchNoMissing {A : Type} (dirPart : String → String)
    (locate : String → Option A) (hashOf : A → String → Option String)
    (s : Submission) : Bool :=
  s.all fun g => g.2.versions.all fun v =>
    match locate (hintOf dirPart v.2) with
    | none => true
    | some a => (v.2.hashes.getD []).all fun t => decide (hashOf a t.1 = some t.2)

/-! ### Association-list lemmas -/

section AssocLemmas

variable {α β : Type} [DecidableEq α]

theorem alookup_append_of_none {l₁ l₂ : List (α × β)} {a : α}
    (h : alookup l₁ a = none) : alookup (l₁ ++ l₂) a = alookup l₂ a := by
  induction l₁ with
  | nil => rfl
  | cons p t ih =>
    obtain ⟨k, v⟩ := p
    by_cases hk : k = a
    · simp [alookup, hk] at h
    · simp only [List.cons_append, alookup, if_neg hk] at h ⊢
      exact ih h

theorem alookup_append_of_some {l₁ l₂ : List (α × β)} {a : α} {b : β}
    (h : alookup l₁ a = some b) : alookup (l₁ ++ l₂) a = some b := by
  induction l₁ with
  | nil => simp [alookup] at h
  | cons p t ih =>
    obtain ⟨k, v⟩ := p
    by_cases hk : k = a
    · simp only [alookup, if_pos hk] at h
      simp only [List.cons_append, alookup, if_pos hk]
      exact h
    · simp only [alookup, if_neg hk] at h
      simp only [List.cons_append, alookup, if_neg hk]
      exact ih h

theorem alookup_append_single_ne {l : List (α × β)} {m a : α} {v : β}
    (h : m ≠ a) : alookup (l ++ [(m, v)]) a = alookup l a := by
  cases hl : alookup l a with
  | none => rw [alookup_append_of_none hl]; simp [alookup, h]
  | some b => exact alookup_append_of_some hl

theorem alookup_aupdate_self {l : List (α × β)} {a : α} {r b : β}
    (h : alookup l a = some r) : alookup (aupdate l a b) a = some b := by
  induction l with
  | nil => simp [alookup] at h
  | cons p t ih =>
    obtain ⟨k, v⟩ := p
    by_cases hk : k = a
    · simp [aupdate, alookup, hk]
    · simp only [alookup, if_neg hk] at h
      simp only [aupdate, if_neg hk, alookup]
      exact ih h

theorem alookup_aupdate_ne {l : List (α × β)} {a a' : α} {b : β}
    (h : a' ≠ a) : alookup (aupdate l a b) a' = alookup l a' := by
  induction l with
  | nil => rfl
  | cons p t ih =>
    obtain ⟨k, v⟩ := p
    by_cases hk : k = a
    · subst hk
      simp [aupdate, alookup, Ne.symm h]
    · simp only [aupdate, if_neg hk, alookup]
      by_cases hk' : k = a'
      · simp [hk']
      · rw [if_neg hk', if_neg hk']
        exact ih

theorem aupdate_self {l : List (α × β)} {a : α} {b : β}
    (h : alookup l a = some b) : aupdate l a b = l := by
  induction l with
  | nil => rfl
  | cons p t ih =>
    obtain ⟨k, v⟩ := p
    by_cases hk : k = a
    · simp only [alookup, if_pos hk] at h
      injection h with h
      simp [aupdate, hk, h]
    · simp only [alookup, if_neg hk] at h
      simp [aupdate, hk, ih h]

theorem alookup_isSome_of_mem {l : List (α × β)} {a : α} {b : β}
    (h : (a, b) ∈ l) : (alookup l a).isSome := by
  induction l with
  | nil => simp at h
  | cons p t ih =>
    obtain ⟨k, v⟩ := p
    by_cases hk : k = a
    · simp [alookup, hk]
    · simp only [alookup, if_neg hk, List.mem_cons] at h ⊢
      rcases h with h | h
      · exact absurd (congrArg Prod.fst h).symm hk
      · exact ih h

/-- Keys are unique, so lookup returns the value of any member pair. -/
theorem alookup_eq_of_mem_nodup {l : List (α × β)} {a : α} {b : β}
    (hnd : (l.map Prod.fst).Nodup) (h : (a, b) ∈ l) : alookup l a = some b := by
  induction l with
  | nil => simp at h
  | cons p t ih =>
    obtain ⟨k, v⟩ := p
    simp only [List.map_cons, List.nodup_cons] at hnd
    rcases List.mem_cons.mp h with h | h
    · injection h with h1 h2
      simp [alookup, h1.symm, h2]
    · have hk : k ≠ a := by
        rintro rfl
        exact hnd.1 (List.mem_map.mpr ⟨(k, b), h, rfl⟩)
      simp only [alookup, if_neg hk]
      exact ih hnd.2 h

end AssocLemmas

/-! ### `dictUpdate` lemmas -/

theorem map_eq_self_of {γ : Type} {l : List γ} {f : γ → γ}
    (h : ∀ x ∈ l, f x = x) : l.map f = l := by
  induction l with
  | nil => rfl
  | cons a t ih =>
    simp only [List.map_cons, h a (List.mem_cons_self a t),
      ih fun x hx => h x (List.mem_cons_of_mem a hx)]

section DictUpdateLemmas

variable {α β : Type} [DecidableEq α]

/-- Lookup on a key-preserving map. -/
theorem alookup_map_keyed {l : List (α × β)} {g : α → β → β} {a : α} :
    alookup (l.map fun p => (p.1, g p.1 p.2)) a = (alookup l a).map (g a) := by
  induction l with
  | nil => rfl
  | cons p t ih =>
    obtain ⟨k, v⟩ := p
    by_cases hk : k = a
    · subst hk
      simp [alookup]
    · simp only [List.map_cons, alookup, if_neg hk]
      exact ih

theorem alookup_filter_of_none {d e : List (α × β)} {a : α}
    (h : alookup d a = none) :
    alookup (e.filter fun q => (alookup d q.1).isNone) a = alookup e a := by
  induction e with
  | nil => rfl
  | cons q t ih =>
    obtain ⟨k, v⟩ := q
    by_cases hk : k = a
    · subst hk
      simp [alookup, h, List.filter_cons]
    · simp only [List.filter_cons, alookup, if_neg hk]
      cases hd : (alookup d k).isNone with
      | true => simp only [if_pos rfl, alookup, if_neg hk]; exact ih
      | false => simpa using ih

theorem alookup_filter_of_some {d e : List (α × β)} {a : α} {b : β}
    (h : alookup d a = some b) :
    alookup (e.filter fun q => (alookup d q.1).isNone) a = none := by
  induction e with
  | nil => rfl
  | cons q t ih =>
    obtain ⟨k, v⟩ := q
    by_cases hk : k = a
    · subst hk
      simp [alookup, h, List.filter_cons, ih]
    · simp only [List.filter_cons]
      cases hd : (alookup d k).isNone with
      | true => simp only [if_pos rfl, alookup, if_neg hk]; exact ih
      | false => simpa using ih

/-- The mapped half of `dictUpdate d e` looks up like `d` with values
overwritten from `e`. -/
theorem alookup_dictUpdate_mapped (d e : List (α × β)) (a : α) :
    alookup (d.map fun p =>
      match alookup e p.1 with
      | some v => (p.1, v)
      | none => p) a =
    (alookup d a).map fun v =>
      match alookup e a with
      | some w => w
      | none => v := by
  have hfun : (fun (p : α × β) =>
      match alookup e p.1 with
      | some v => (p.1, v)
      | none => p) = fun p => (p.1,
        match alookup e p.1 with
        | some v => v
        | none => p.2) := by
    funext p
    cases alookup e p.1 <;> rfl
  rw [hfun]
  exact alookup_map_keyed
    (g := fun k v =>
      match alookup e k with
      | some w => w
      | none => v)

/-- Pointwise behaviour of Python `d.update(e)`: the key takes `e`'s value
when present there, `d`'s value otherwise. -/
theorem alookup_dictUpdate (d e : List (α × β)) (a : α) :
    alookup (dictUpdate d e) a =
      match alookup e a with
      | some v => some v
      | none => alookup d a := by
  unfold dictUpdate
  cases hd : alookup d a with
  | some v =>
    have h1 := alookup_dictUpdate_mapped d e a
    rw [hd] at h1
    simp only [Option.map_some'] at h1
    rw [alookup_append_of_some h1]
    cases he : alookup e a with
    | some w => rfl
    | none => rfl
  | none =>
    have h1 := alookup_dictUpdate_mapped d e a
    rw [hd] at h1
    simp only [Option.map_none'] at h1
    rw [alookup_append_of_none h1, alookup_filter_of_none hd]
    cases he : alookup e a with
    | some w => rfl
    | none => rfl

/-- Re-applying the same update is absorbed: every key of `e` already holds
`e`'s value after `dictUpdate d e`. -/
theorem dictUpdate_absorb {d e : List (α × β)} (hnd : nodupKeys e) :
    dictUpdate (dictUpdate d e) e = dictUpdate d e := by
  have hfil : (e.filter fun q => (alookup (dictUpdate d e) q.1).isNone) = [] := by
    rw [List.filter_eq_nil_iff]
    intro q hq
    obtain ⟨qk, qv⟩ := q
    rw [alookup_dictUpdate]
    have hsome := alookup_isSome_of_mem hq
    cases he : alookup e qk with
    | some v => simp
    | none => rw [he] at hsome; simp at hsome
  have hmap :
      ((dictUpdate d e).map fun p =>
        match alookup e p.1 with
        | some v => (p.1, v)
        | none => p) = dictUpdate d e := by
    apply map_eq_self_of
    intro p hp
    rcases List.mem_append.mp hp with hp | hp
    · rcases List.mem_map.mp hp with ⟨q, hq, hfq⟩
      cases hqe : alookup e q.1 with
      | none =>
        rw [hqe] at hfq
        rw [← hfq, hqe]
      | some v =>
        rw [hqe] at hfq
        rw [← hfq]
        simp only [hqe]
    · obtain ⟨hpe, _⟩ := List.mem_filter.mp hp
      obtain ⟨pk, pv⟩ := p
      rw [alookup_eq_of_mem_nodup hnd hpe]
  conv_lhs => rw [dictUpdate]
  rw [hfil, hmap, List.append_nil]

/-- Updating the empty mapping inserts all of `e`. -/
theorem dictUpdate_nil_left (e : List (α × β)) : dictUpdate [] e = e := by
  unfold dictUpdate
  rw [List.map_nil, List.nil_append]
  exact List.filter_eq_self.mpr fun q _ => rfl

theorem dictUpdate_self {e : List (α × β)} (hnd : nodupKeys e) :
    dictUpdate e e = e := by
  have h := dictUpdate_absorb (d := []) hnd
  rwa [dictUpdate_nil_left] at h

end DictUpdateLemmas

theorem vrecWF_elim {v : VRec} (h : vrecWF v = true) :
    ∃ hs, v.hashes = some hs ∧ nodupKeys hs := by
  unfold vrecWF at h
  cases hv : v.hashes with
  | none => rw [hv] at h; exact absurd h (by simp)
  | some hs =>
    rw [hv] at h
    exact ⟨hs, rfl, of_decide_eq_true h⟩

theorem versionsWF_cons {n : String} {v : VRec} {rest : List (String × VRec)}
    (h : versionsWF ((n, v) :: rest) = true) :
    vrecWF v = true ∧ versionsWF rest = true ∧ ∀ q ∈ rest, q.1 ≠ n := by
  unfold versionsWF nodupKeys at h
  simp only [List.map_cons, List.nodup_cons, Bool.and_eq_true, List.all_cons,
    decide_eq_true_eq] at h
  obtain ⟨⟨hn, hnd⟩, hv, hall⟩ := h
  refine ⟨hv, ?_, ?_⟩
  · unfold versionsWF nodupKeys
    simp only [Bool.and_eq_true, decide_eq_true_eq]
    exact ⟨hnd, hall⟩
  · intro q hq hqn
    exact hn (List.mem_map.mpr ⟨q, hq, hqn⟩)

theorem submissionWF_cons {kStr : String} {g : GameRec} {rest : Submission}
    (h : submissionWF ((kStr, g) :: rest) = true) :
    versionsWF g.versions = true ∧ submissionWF rest = true ∧
      ∀ q ∈ rest, pyInt q.1 ≠ pyInt kStr := by
  unfold submissionWF at h
  simp only [List.map_cons, List.nodup_cons, Bool.and_eq_true, List.all_cons,
    decide_eq_true_eq] at h
  obtain ⟨⟨hn, hnd⟩, hv, hall⟩ := h
  refine ⟨hv, ?_, ?_⟩
  · unfold submissionWF
    simp only [Bool.and_eq_true, decide_eq_true_eq]
    exact ⟨hnd, hall⟩
  · intro q hq hqn
    exact hn (List.mem_map.mpr ⟨q, hq, hqn⟩)

/-- Overwriting the `hashes` field with its own value is the identity. -/
theorem vrec_set_hashes_self {v : VRec} {hs : List (String × String)}
    (h : v.hashes = some hs) : { v with hashes := some hs } = v := by
  cases v
  subst h
  rfl

/-! ### Idempotence infrastructure for `merge_into_global` -/

/-- The version loop leaves names it never touches alone. -/
theorem mergeVersions_preserves {svs : List (String × VRec)} :
    ∀ {vs vs' : List (String × VRec)} {k : Nat} {n : String},
      mergeVersions vs svs = .ok (vs', k) → (∀ q ∈ svs, q.1 ≠ n) →
      alookup vs' n = alookup vs n := by
  induction svs with
  | nil =>
    intro vs vs' k n h _
    simp only [mergeVersions] at h
    injection h with h
    injection h with h1 _
    rw [← h1]
  | cons q rest ih =>
    intro vs vs' k n h hn
    obtain ⟨m, v⟩ := q
    simp only [mergeVersions] at h
    cases h1 : mergeVersionStep vs m v with
    | error e => simp only [h1] at h; exact Except.noConfusion h
    | ok p =>
      obtain ⟨vs1, k1⟩ := p
      simp only [h1] at h
      cases h2 : mergeVersions vs1 rest with
      | error e => simp only [h2] at h; exact Except.noConfusion h
      | ok p2 =>
        obtain ⟨vs2, k2⟩ := p2
        simp only [h2, Except.ok.injEq, Prod.mk.injEq] at h
        obtain ⟨ha, _⟩ := h
        subst ha
        have hm : m ≠ n := hn (m, v) (List.mem_cons_self _ _)
        have hrest : alookup vs2 n = alookup vs1 n :=
          ih h2 fun q hq => hn q (List.mem_cons_of_mem _ hq)
        unfold mergeVersionStep at h1
        cases hvs : alookup vs m with
        | none =>
          simp only [hvs, Except.ok.injEq, Prod.mk.injEq] at h1
          obtain ⟨hA, _⟩ := h1
          rw [hrest, ← hA, alookup_append_single_ne hm]
        | some r =>
          simp only [hvs] at h1
          cases hr : r.hashes with
          | none => simp only [hr] at h1; exact Except.noConfusion h1
          | some hh =>
            simp only [hr, Except.ok.injEq, Prod.mk.injEq] at h1
            obtain ⟨hA, _⟩ := h1
            rw [hrest, ← hA, alookup_aupdate_ne (Ne.symm hm)]

/-- Replaying one version step on any state whose entry at the name agrees
with the step's own result is a counted-zero no-op. -/
theorem mergeVersionStep_stable {vs vs1 vs' : List (String × VRec)} {n : String}
    {v : VRec} {k1 : Nat}
    (hwf : vrecWF v = true)
    (h1 : mergeVersionStep vs n v = .ok (vs1, k1))
    (hl : alookup vs' n = alookup vs1 n) :
    mergeVersionStep vs' n v = .ok (vs', 0) := by
  obtain ⟨hv, hveq, hvnd⟩ := vrecWF_elim hwf
  have hgd : v.hashes.getD [] = hv := by rw [hveq]; rfl
  unfold mergeVersionStep at h1
  cases hvs : alookup vs n with
  | none =>
    simp only [hvs, Except.ok.injEq, Prod.mk.injEq] at h1
    obtain ⟨hA, _⟩ := h1
    have hsome : alookup vs1 n = some v := by
      rw [← hA, alookup_append_of_none hvs]
      simp [alookup]
    have hlook : alookup vs' n = some v := hl.trans hsome
    simp only [mergeVersionStep, hlook, hveq, hgd, Option.getD_some]
    rw [dictUpdate_self hvnd, vrec_set_hashes_self hveq, aupdate_self hlook]
  | some r =>
    simp only [hvs] at h1
    cases hr : r.hashes with
    | none => simp only [hr] at h1; exact Except.noConfusion h1
    | some hh =>
      simp only [hr, Except.ok.injEq, Prod.mk.injEq] at h1
      obtain ⟨hA, _⟩ := h1
      have hsome : alookup vs1 n =
          some { r with hashes := some (dictUpdate hh hv) } := by
        rw [← hA, hgd]
        exact alookup_aupdate_self hvs
      have hlook : alookup vs' n =
          some { r with hashes := some (dictUpdate hh hv) } := hl.trans hsome
      simp only [mergeVersionStep, hlook, hgd, Option.getD_some]
      rw [dictUpdate_absorb hvnd, aupdate_self hlook]

/-- Replaying the whole version loop on its own result is a counted-zero
no-op. -/
theorem mergeVersions_idem {svs : List (String × VRec)} :
    ∀ {vs vs' : List (String × VRec)} {k : Nat},
      versionsWF svs = true → mergeVersions vs svs = .ok (vs', k) →
      mergeVersions vs' svs = .ok (vs', 0) := by
  induction svs with
  | nil =>
    intro vs vs' k _ h
    simp only [mergeVersions] at h
    simp only [Except.ok.injEq, Prod.mk.injEq] at h
    obtain ⟨h1, _⟩ := h
    subst h1
    rfl
  | cons q rest ih =>
    intro vs vs' k hwf h
    obtain ⟨n, v⟩ := q
    obtain ⟨hwv, hwrest, hnames⟩ := versionsWF_cons hwf
    simp only [mergeVersions] at h
    cases h1 : mergeVersionStep vs n v with
    | error e => simp only [h1] at h; exact Except.noConfusion h
    | ok p =>
      obtain ⟨vs1, k1⟩ := p
      simp only [h1] at h
      cases h2 : mergeVersions vs1 rest with
      | error e => simp only [h2] at h; exact Except.noConfusion h
      | ok p2 =>
        obtain ⟨vs2, k2⟩ := p2
        simp only [h2, Except.ok.injEq, Prod.mk.injEq] at h
        obtain ⟨ha, _⟩ := h
        subst ha
        have hl : alookup vs2 n = alookup vs1 n :=
          mergeVersions_preserves h2 hnames
        have hstep : mergeVersionStep vs2 n v = .ok (vs2, 0) :=
          mergeVersionStep_stable hwv h1 hl
        have hrest : mergeVersions vs2 rest = .ok (vs2, 0) := ih hwrest h2
        simp only [mergeVersions, hstep, hrest]

/-- The game loop leaves integer keys it never touches alone. -/
theorem merge_preserves {sgs : Submission} :
    ∀ {c c' : Catalog} {k : Nat} {ki : Int},
      merge_into_global c sgs = .ok (c', k) →
      (∀ q ∈ sgs, pyInt q.1 ≠ some ki) →
      alookup c' (GKey.i ki) = alookup c (GKey.i ki) := by
  induction sgs with
  | nil =>
    intro c c' k ki h _
    simp only [merge_into_global, Except.ok.injEq, Prod.mk.injEq] at h
    obtain ⟨h1, _⟩ := h
    subst h1
    rfl
  | cons q rest ih =>
    intro c c' k ki h hn
    obtain ⟨kStr, g⟩ := q
    simp only [merge_into_global] at h
    cases h1 : mergeGameStep c kStr g with
    | error e => simp only [h1] at h; exact Except.noConfusion h
    | ok p =>
      obtain ⟨c1, k1⟩ := p
      simp only [h1] at h
      cases h2 : merge_into_global c1 rest with
      | error e => simp only [h2] at h; exact Except.noConfusion h
      | ok p2 =>
        obtain ⟨c2, k2⟩ := p2
        simp only [h2, Except.ok.injEq, Prod.mk.injEq] at h
        obtain ⟨ha, _⟩ := h
        subst ha
        have hrest : alookup c2 (GKey.i ki) = alookup c1 (GKey.i ki) :=
          ih h2 fun q hq => hn q (List.mem_cons_of_mem _ hq)
        have hks : pyInt kStr ≠ some ki := hn (kStr, g) (List.mem_cons_self _ _)
        unfold mergeGameStep at h1
        cases hpi : pyInt kStr with
        | none => simp only [hpi] at h1; exact Except.noConfusion h1
        | some kj =>
          simp only [hpi] at h1
          have hkj : GKey.i kj ≠ GKey.i ki := by
            intro hcon
            injection hcon with hcon
            exact hks (by rw [hpi, hcon])
          cases hc : alookup c (GKey.i kj) with
          | some tg =>
            simp only [hc] at h1
            cases hmv : mergeVersions tg.versions g.versions with
            | error e => simp only [hmv] at h1; exact Except.noConfusion h1
            | ok pm =>
              obtain ⟨vs, km⟩ := pm
              simp only [hmv, Except.ok.injEq, Prod.mk.injEq] at h1
              obtain ⟨hA, _⟩ := h1
              rw [hrest, ← hA, alookup_aupdate_ne (Ne.symm hkj)]
          | none =>
            simp only [hc] at h1
            cases hmv : mergeVersions [] g.versions with
            | error e => simp only [hmv] at h1; exact Except.noConfusion h1
            | ok pm =>
              obtain ⟨vs, km⟩ := pm
              simp only [hmv, Except.ok.injEq, Prod.mk.injEq] at h1
              obtain ⟨hA, _⟩ := h1
              rw [hrest, ← hA, alookup_append_single_ne hkj]

/-- Replaying one game step on any state that agrees with the step's own
result at the game's integer key is a counted-zero no-op. -/
theorem mergeGameStep_stable {c c1 c' : Catalog} {kStr : String} {g : GameRec}
    {k1 : Nat}
    (hwf : versionsWF g.versions = true)
    (h1 : mergeGameStep c kStr g = .ok (c1, k1))
    (hl : ∀ ki, pyInt kStr = some ki →
      alookup c' (GKey.i ki) = alookup c1 (GKey.i ki)) :
    mergeGameStep c' kStr g = .ok (c', 0) := by
  unfold mergeGameStep at h1
  cases hpi : pyInt kStr with
  | none => simp only [hpi] at h1; exact Except.noConfusion h1
  | some ki =>
    simp only [hpi] at h1
    have hl' := hl ki hpi
    cases hc : alookup c (GKey.i ki) with
    | some tg =>
      simp only [hc] at h1
      cases hmv : mergeVersions tg.versions g.versions with
      | error e => simp only [hmv] at h1; exact Except.noConfusion h1
      | ok pm =>
        obtain ⟨vs, km⟩ := pm
        simp only [hmv, Except.ok.injEq, Prod.mk.injEq] at h1
        obtain ⟨hA, _⟩ := h1
        have hlook1 : alookup c1 (GKey.i ki) = some { tg with versions := vs } := by
          rw [← hA]
          exact alookup_aupdate_self hc
        have hlook : alookup c' (GKey.i ki) = some { tg with versions := vs } :=
          hl'.trans hlook1
        have hidem : mergeVersions vs g.versions = .ok (vs, 0) :=
          mergeVersions_idem hwf hmv
        simp only [mergeGameStep, hpi, hlook, hidem]
        rw [aupdate_self hlook]
    | none =>
      simp only [hc] at h1
      cases hmv : mergeVersions [] g.versions with
      | error e => simp only [hmv] at h1; exact Except.noConfusion h1
      | ok pm =>
        obtain ⟨vs, km⟩ := pm
        simp only [hmv, Except.ok.injEq, Prod.mk.injEq] at h1
        obtain ⟨hA, _⟩ := h1
        have hlook1 : alookup c1 (GKey.i ki) =
            some { versions := vs, other := [] } := by
          rw [← hA, alookup_append_of_none hc]
          simp [alookup]
        have hlook : alookup c' (GKey.i ki) =
            some { versions := vs, other := [] } := hl'.trans hlook1
        have hidem : mergeVersions vs g.versions = .ok (vs, 0) :=
          mergeVersions_idem hwf hmv
        simp only [mergeGameStep, hpi, hlook, hidem]
        rw [aupdate_self hlook]

/-- Replaying a well-formed submission on its own merge result is a
counted-zero no-op. -/
theorem merge_into_global_idem_aux {sgs : Submission} :
    ∀ {c c' : Catalog} {k : Nat},
      submissionWF sgs = true → merge_into_global c sgs = .ok (c', k) →
      merge_into_global c' sgs = .ok (c', 0) := by
  induction sgs with
  | nil =>
    intro c c' k _ h
    simp only [merge_into_global, Except.ok.injEq, Prod.mk.injEq] at h
    obtain ⟨h1, _⟩ := h
    subst h1
    rfl
  | cons q rest ih =>
    intro c c' k hwf h
    obtain ⟨kStr, g⟩ := q
    obtain ⟨hwv, hwrest, hkeys⟩ := submissionWF_cons hwf
    simp only [merge_into_global] at h
    cases h1 : mergeGameStep c kStr g with
    | error e => simp only [h1] at h; exact Except.noConfusion h
    | ok p =>
      obtain ⟨c1, k1⟩ := p
      simp only [h1] at h
      cases h2 : merge_into_global c1 rest with
      | error e => simp only [h2] at h; exact Except.noConfusion h
      | ok p2 =>
        obtain ⟨c2, k2⟩ := p2
        simp only [h2, Except.ok.injEq, Prod.mk.injEq] at h
        obtain ⟨ha, _⟩ := h
        subst ha
        have hl : ∀ ki, pyInt kStr = some ki →
            alookup c2 (GKey.i ki) = alookup c1 (GKey.i ki) := by
          intro ki hki
          exact merge_preserves h2 fun q hq => by
            rw [← hki]
            exact hkeys q hq
        have hstep : mergeGameStep c2 kStr g = .ok (c2, 0) :=
          mergeGameStep_stable hwv h1 hl
        have hrest : merge_into_global c2 rest = .ok (c2, 0) := ih hwrest h2
        simp only [merge_into_global, hstep, hrest]

/-! ### Relational copy lemmas -/

/-- The child-table loop on pre-filtered rows: every row is inserted once
with a fresh consecutive id and a remapped `version_id`, and counted. -/
theorem copyTableLoop_spec {α : Type} {mapping : List (Int × Int)}
    {rows : List (ChildRow α)} :
    ∀ (out : ChildTable α) (cnt : Nat),
      (∀ r ∈ rows, (alookup mapping r.version_id).isSome) →
      copyTableLoop rows mapping out cnt =
        ({ rows := out.rows ++ remapChildRows mapping out.nextId rows,
           nextId := out.nextId + rows.length }, cnt + rows.length) := by
  induction rows with
  | nil =>
    intro out cnt _
    simp [copyTableLoop, remapChildRows]
  | cons r rest ih =>
    intro out cnt hall
    have hr := hall r (List.mem_cons_self _ _)
    cases hm : alookup mapping r.version_id with
    | none => rw [hm] at hr; simp at hr
    | some nv =>
      simp only [copyTableLoop, hm]
      rw [ih _ _ fun q hq => hall q (List.mem_cons_of_mem _ hq)]
      simp only [remapChildRows, hm, Option.getD_some, List.length_cons,
        List.append_assoc, List.singleton_append, Prod.mk.injEq,
        ChildTable.mk.injEq, true_and, and_true, eq_self_iff_true]
      refine ⟨?_, ?_⟩
      · push_cast
        ring
      · omega

/-- The version-copy loop on pre-filtered rows: it never raises, inserts
every row once with a fresh consecutive id and a remapped `game_id`, and
extends the version-id remap by one entry per row. -/
theorem copyVersionsLoop_spec {mapping : List (Int × Int)}
    {rows : List VersionRow} :
    ∀ (out : VersionsTable) (vmap : List (Int × Int)) (cnt : Nat),
      (∀ r ∈ rows, (alookup mapping r.game_id).isSome) →
      copyVersionsLoop rows mapping out vmap cnt =
        .ok ({ rows := out.rows ++ remapVersionRows mapping out.nextId rows,
               nextId := out.nextId + rows.length },
             vmap ++ versionIdRemap out.nextId rows,
             cnt + rows.length) := by
  induction rows with
  | nil =>
    intro out vmap cnt _
    simp [copyVersionsLoop, remapVersionRows, versionIdRemap]
  | cons r rest ih =>
    intro out vmap cnt hall
    have hr := hall r (List.mem_cons_self _ _)
    cases hm : alookup mapping r.game_id with
    | none => rw [hm] at hr; simp at hr
    | some ng =>
      simp only [copyVersionsLoop, hm]
      rw [ih _ _ _ fun q hq => hall q (List.mem_cons_of_mem _ hq)]
      simp only [remapVersionRows, versionIdRemap, hm, Option.getD_some,
        List.length_cons, List.append_assoc, List.singleton_append,
        Except.ok.injEq, Prod.mk.injEq, VersionsTable.mk.injEq, true_and,
        and_true, eq_self_iff_true]
      refine ⟨?_, ?_⟩
      · push_cast
        ring
      · omega

/-- `copy_versions` is total: the SQL filter guarantees every fetched row's
`game_id` is mapped, so the `RuntimeError` branch never fires. -/
theorem copy_versions_ok (rows : List VersionRow) (mapping : List (Int × Int))
    (out : VersionsTable) :
    copy_versions rows mapping out =
      .ok ({ rows := out.rows ++ remapVersionRows mapping out.nextId
                (rows.filter fun r => (alookup mapping r.game_id).isSome),
             nextId := out.nextId +
                (rows.filter fun r => (alookup mapping r.game_id).isSome).length },
           versionIdRemap out.nextId
             (rows.filter fun r => (alookup mapping r.game_id).isSome),
           (rows.filter fun r => (alookup mapping r.game_id).isSome).length) := by
  unfold copy_versions
  rw [copyVersionsLoop_spec _ _ _ fun q hq => (List.mem_filter.mp hq).2]
  simp

/-- The copy phase of the import run always succeeds and leaves the target's
`db_version` rows untouched. -/
theorem copyAll_ok (src : SourceDb) (out : TargetDb) :
    ∃ d, copyAll src out = .ok d ∧ d.db_version = out.db_version := by
  simp only [copyAll]
  rw [copy_versions_ok]
  exact ⟨_, rfl, rfl⟩

/-! ### Verification lemmas -/

theorem foldl_and_eq {γ : Type} (f : γ → Bool) (l : List γ) :
    ∀ b : Bool, l.foldl (fun acc x => acc && f x) b = (b && l.all f) := by
  induction l with
  | nil => intro b; simp
  | cons a t ih =>
    intro b
    simp [List.all_cons, ih, Bool.and_assoc]

/-- The accumulated `ok` flag of `verify_submission` is the conjunction of
all per-version outcomes. -/
theorem verify_submission_eq_all {A : Type} (dirPart : String → String)
    (locate : String → Option A) (hashOf : A → String → Option String)
    (s : Submission) :
    verify_submission dirPart locate hashOf s =
      s.all fun g => g.2.versions.all
        fun v => verifyVersion dirPart locate hashOf v.2 := by
  unfold verify_submission
  have hinner : (fun (ok : Bool) (g : String × GameRec) =>
      g.2.versions.foldl
        (fun ok2 v => ok2 && verifyVersion dirPart locate hashOf v.2) ok)
      = fun ok g => ok && g.2.versions.all
          fun v => verifyVersion dirPart locate hashOf v.2 := by
    funext ok g
    exact foldl_and_eq _ _ ok
  rw [hinner, foldl_and_eq]
  simp

/-- A version passes the verification body exactly when its archive is
located and every (inner-file, digest) pair checks out. -/
theorem verifyVersion_eq_true_iff {A : Type} (dirPart : String → String)
    (locate : String → Option A) (hashOf : A → String → Option String)
    (v : VRec) :
    verifyVersion dirPart locate hashOf v = true ↔
      ∃ a, locate (hintOf dirPart v) = some a ∧
        ∀ t ∈ v.hashes.getD [], hashOf a t.1 = some t.2 := by
  unfold verifyVersion
  cases hloc : locate (hintOf dirPart v) with
  | none => simp
  | some a => simp [List.all_eq_true]


/-! ## Claim theorems -/

/-- C1 (failing evaluation): merging a submission for external id 5 into a
catalog that already holds that game under the JSON string key "5" (as in a
catalog loaded from the tool's own saved JSON) creates a second `games`
entry under the int key 5: the target ends with two entries denoting
external id 5, so the merge does create two Games with the same external
identifier. -/
theorem merge_duplicates_game_with_string_key :
    let r1 : VRec := ⟨some "DOOM/doom.exe", some [("doom.exe", "aaa")], []⟩
    let r2 : VRec := ⟨some "DOOM/doom.exe", some [("doom.exe", "bbb")], []⟩
    let c : Catalog := [(GKey.s "5", ⟨[("v1", r1)], []⟩)]
    let c2 : Catalog := c ++ [(GKey.i 5, ⟨[("v1", r2)], []⟩)]
    merge_into_global c [("5", ⟨[("v1", r2)], []⟩)] = .ok (c2, 1)
    ∧ (c.filter fun p => keyDenotes p.1 5).length = 1
    ∧ (c2.filter fun p => keyDenotes p.1 5).length = 2 := by
  decide

/-- C2: re-merging a well-formed submission into its own merge result
returns the same catalog with a zero new-version count: no duplicate Games
or Versions are created and the second hash union only rewrites keys with
the values they already hold. -/
theorem merge_into_global_idempotent (c c' : Catalog) (s : Submission) (k : Nat)
    (hwf : submissionWF s = true)
    (hmerge : merge_into_global c s = .ok (c', k)) :
    merge_into_global c' s = .ok (c', 0) :=
  merge_into_global_idem_aux hwf hmerge

theorem merge_into_global_idempotent_witness :
    merge_into_global [(GKey.i 5, ⟨[("v1", ⟨some "e", some [("f", "h")], []⟩)], []⟩)]
        [("5", ⟨[("v1", ⟨some "e", some [("f", "h")], []⟩)], []⟩)]
      = .ok ([(GKey.i 5, ⟨[("v1", ⟨some "e", some [("f", "h")], []⟩)], []⟩)], 0) :=
  merge_into_global_idempotent []
    [(GKey.i 5, ⟨[("v1", ⟨some "e", some [("f", "h")], []⟩)], []⟩)]
    [("5", ⟨[("v1", ⟨some "e", some [("f", "h")], []⟩)], []⟩)]
    1 (by decide) (by decide)

/-- C3 counterexample: a source version row whose `game_id` (2) is not a key
of the game-id remap (1 maps to 10) does not make `copy_versions` fail
fatally — the copy returns successfully with the row dropped and nothing
inserted. -/
theorem copy_versions_ok_on_unmapped_game_id :
    copy_versions [⟨1, 2, []⟩] [(1, 10)] ⟨[], 1⟩ = .ok (⟨[], 1⟩, [], 0) := by
  decide

/-- C3 amended: `copy_versions` never fails: version rows whose `game_id` is
not a remap key are excluded by the `WHERE game_id IN (...)` selection and
silently dropped (never copied, never remapped, never counted; the in-loop
`RuntimeError` branch is dead code), while every selected row is copied once
with a fresh id and remapped `game_id`. -/
theorem copy_versions_silently_drops_unmapped (rows : List VersionRow)
    (mapping : List (Int × Int)) (out : VersionsTable) :
    copy_versions rows mapping out =
      .ok (⟨out.rows ++ remapVersionRows mapping out.nextId
              (rows.filter fun r => (alookup mapping r.game_id).isSome),
            out.nextId +
              (rows.filter fun r => (alookup mapping r.game_id).isSome).length⟩,
           versionIdRemap out.nextId
             (rows.filter fun r => (alookup mapping r.game_id).isSome),
           (rows.filter fun r => (alookup mapping r.game_id).isSome).length) :=
  copy_versions_ok rows mapping out

/-- C4: when game and version name are present on both sides (and the target
record carries its `hashes` mapping), the merge replaces exactly that
record's `hashes` by the key-wise union in which the submission wins; every
other field of the record, every other hash key, every other version and
every other game entry is unchanged, and no version is counted as new. -/
theorem merge_into_global_hash_union (c : Catalog) (kStr : String) (ki : Int)
    (tg : GameRec) (n : String) (r sv : VRec) (h : List (String × String))
    (o : List (String × String))
    (hk : pyInt kStr = some ki)
    (hg : alookup c (GKey.i ki) = some tg)
    (hv : alookup tg.versions n = some r)
    (hh : r.hashes = some h) :
    merge_into_global c [(kStr, ⟨[(n, sv)], o⟩)] =
      .ok (aupdate c (GKey.i ki) (setVersions tg (aupdate tg.versions n
        (setHashes r (dictUpdate h (sv.hashes.getD []))))), 0)
    ∧ (∀ k', k' ≠ GKey.i ki →
        alookup (aupdate c (GKey.i ki) (setVersions tg (aupdate tg.versions n
          (setHashes r (dictUpdate h (sv.hashes.getD [])))))) k' = alookup c k')
    ∧ (∀ m, m ≠ n →
        alookup (aupdate tg.versions n
          (setHashes r (dictUpdate h (sv.hashes.getD [])))) m
          = alookup tg.versions m)
    ∧ (setHashes r (dictUpdate h (sv.hashes.getD []))).executable = r.executable
    ∧ (setHashes r (dictUpdate h (sv.hashes.getD []))).other = r.other
    ∧ (∀ key, alookup (dictUpdate h (sv.hashes.getD [])) key =
        match alookup (sv.hashes.getD []) key with
        | some v => some v
        | none => alookup h key) := by
  refine ⟨?_, ?_, ?_, rfl, rfl, ?_⟩
  · simp only [merge_into_global, mergeGameStep, hk, hg, mergeVersions,
      mergeVersionStep, hv, hh, setVersions, setHashes, Nat.add_zero]
  · intro k' hk'
    exact alookup_aupdate_ne hk'
  · intro m hm
    exact alookup_aupdate_ne hm
  · intro key
    rw [alookup_dictUpdate]
    cases alookup (sv.hashes.getD []) key <;> rfl

theorem merge_into_global_hash_union_witness :
    dictUpdate [("a", "1"), ("b", "2")] [("b", "3"), ("c", "4")]
      = [("a", "1"), ("b", "3"), ("c", "4")]
    ∧ merge_into_global
        [(GKey.i 7, ⟨[("v1", ⟨some "x", some [("a", "1"), ("b", "2")],
          [("cycles", "3000")]⟩)], []⟩)]
        [("7", ⟨[("v1", ⟨some "y", some [("b", "3"), ("c", "4")], []⟩)], []⟩)]
      = .ok ([(GKey.i 7, ⟨[("v1", ⟨some "x",
          some [("a", "1"), ("b", "3"), ("c", "4")],
          [("cycles", "3000")]⟩)], []⟩)], 0) := by
  refine ⟨by decide, ?_⟩
  have hm := (merge_into_global_hash_union
    [(GKey.i 7, ⟨[("v1", ⟨some "x", some [("a", "1"), ("b", "2")],
      [("cycles", "3000")]⟩)], []⟩)]
    "7" 7
    ⟨[("v1", ⟨some "x", some [("a", "1"), ("b", "2")], [("cycles", "3000")]⟩)], []⟩
    "v1"
    ⟨some "x", some [("a", "1"), ("b", "2")], [("cycles", "3000")]⟩
    ⟨some "y", some [("b", "3"), ("c", "4")], []⟩
    [("a", "1"), ("b", "2")] []
    (by decide) (by decide) (by decide) (by decide)).1
  exact hm.trans (by decide)

/-- C5: when both stores exist and their `db_version` values differ, the
importer reports exactly the version-mismatch error and aborts before any
copy: the result is the error, not a store, so no row is written to any
target table. -/
theorem import_aborts_on_db_version_mismatch (src : SourceDb) (o : TargetDb)
    (vi vo : String)
    (hvi : get_database_version src.db_version = some vi)
    (hvo : get_database_version o.db_version = some vo)
    (hne : vi ≠ vo) :
    mainModel src (some o) = .error (.versionMismatch vi vo) := by
  simp only [mainModel, hvi, hvo, if_neg hne]

theorem import_aborts_on_db_version_mismatch_witness :
    mainModel
        ⟨[⟨1, some 5, ["Doom"]⟩], [⟨1, 1, ["1.0"]⟩],
          [⟨1, 1, ("doom.exe", "aaa")⟩], [], ["0.5.0"]⟩
        (some ⟨⟨[], 1⟩, ⟨[], 1⟩, ⟨[], 1⟩, ⟨[], 1⟩, ["0.6.0"]⟩)
      = .error (.versionMismatch "0.5.0" "0.6.0") :=
  import_aborts_on_db_version_mismatch _ _ "0.5.0" "0.6.0" rfl rfl (by decide)

/-- C6: `copy_table` excludes rows with unmapped `version_id` from the
selection (they are neither inserted nor counted), and inserts every
selected row exactly once with its `version_id` rewritten to the mapped
value and a fresh target-assigned id replacing the dropped original. -/
theorem copy_table_excludes_unmapped_and_remaps {α : Type}
    (rows : List (ChildRow α)) (mapping : List (Int × Int))
    (out : ChildTable α) :
    copy_table rows mapping out =
      (⟨out.rows ++ remapChildRows mapping out.nextId
          (rows.filter fun r => (alookup mapping r.version_id).isSome),
        out.nextId +
          (rows.filter fun r => (alookup mapping r.version_id).isSome).length⟩,
       (rows.filter fun r => (alookup mapping r.version_id).isSome).length,
       (rows.filter fun r => (alookup mapping r.version_id).isSome).length) := by
  simp only [copy_table]
  rw [copyTableLoop_spec _ _ fun q hq => (List.mem_filter.mp hq).2]
  simp

/-- C7: a submitted version whose name is absent under its game in the
target is appended verbatim — the exact record, all fields unmodified —
and counted as one new version. -/
theorem merge_into_global_inserts_new_version_verbatim (c : Catalog)
    (kStr : String) (ki : Int) (tg : GameRec) (n : String) (sv : VRec)
    (o : List (String × String))
    (hk : pyInt kStr = some ki)
    (hg : alookup c (GKey.i ki) = some tg)
    (hv : alookup tg.versions n = none) :
    merge_into_global c [(kStr, ⟨[(n, sv)], o⟩)] =
      .ok (aupdate c (GKey.i ki) (setVersions tg (tg.versions ++ [(n, sv)])), 1)
    ∧ alookup (tg.versions ++ [(n, sv)]) n = some sv := by
  constructor
  · simp only [merge_into_global, mergeGameStep, hk, hg, mergeVersions,
      mergeVersionStep, hv, setVersions, Nat.add_zero]
  · rw [alookup_append_of_none hv]
    simp [alookup]

theorem merge_into_global_inserts_new_version_verbatim_witness :
    merge_into_global
        [(GKey.i 3, ⟨[("v1", ⟨some "a", some [("f", "h")], []⟩)], []⟩)]
        [("3", ⟨[("v2", ⟨some "z", none, [("cfg", "1")]⟩)], []⟩)]
      = .ok ([(GKey.i 3, ⟨[
          ("v1", ⟨some "a", some [("f", "h")], []⟩),
          ("v2", ⟨some "z", none, [("cfg", "1")]⟩)], []⟩)], 1) := by
  have hm := (merge_into_global_inserts_new_version_verbatim
    [(GKey.i 3, ⟨[("v1", ⟨some "a", some [("f", "h")], []⟩)], []⟩)]
    "3" 3
    ⟨[("v1", ⟨some "a", some [("f", "h")], []⟩)], []⟩
    "v2" ⟨some "z", none, [("cfg", "1")]⟩ []
    (by decide) (by decide) (by decide)).1
  exact hm.trans (by decide)

/-- C8 counterexample: a submission with one version whose archive is never
located makes `verify_submission` return `False` even though zero digest
mismatches and zero missing inner entries occurred across all checked
(inner-file, digest) pairs — the stated "if and only if" fails. -/
theorem verify_submission_false_with_zero_mismatches :
    verify_submission (fun _ => "") (fun _ => (none : Option Unit))
        (fun _ _ => none)
        [("5", ⟨[("v1", ⟨some "GAME/game.exe", some [], []⟩)], []⟩)] = false
    ∧ noMismatchNoMissing (fun _ => "") (fun _ => (none : Option Unit))
        (fun _ _ => none)
        [("5", ⟨[("v1", ⟨some "GAME/game.exe", some [], []⟩)], []⟩)] = true :=
  ⟨rfl, rfl⟩

/-- C8 amended: `verify_submission` succeeds exactly when every submitted
version's archive is located and, for the located archive, every
(inner-file, expected-digest) pair yields a present entry with a matching
digest. -/
theorem verify_submission_true_iff (A : Type) (dirPart : String → String)
    (locate : String → Option A) (hashOf : A → String → Option String)
    (s : Submission) :
    verify_submission dirPart locate hashOf s = true ↔
      ∀ p ∈ s, ∀ q ∈ p.2.versions,
        ∃ a, locate (hintOf dirPart q.2) = some a ∧
          ∀ t ∈ q.2.hashes.getD [], hashOf a t.1 = some t.2 := by
  rw [verify_submission_eq_all]
  simp only [List.all_eq_true, verifyVersion_eq_true_iff]

/-- C9: when the target already holds, under the submitted game and version
name, a record with no `hashes` field, the merge fails with the `KeyError`
of `existing["hashes"]` — regardless of the submission side, whose missing
`hashes` is defaulted to the empty mapping. -/
theorem merge_into_global_keyerror_missing_hashes (c : Catalog)
    (kStr : String) (ki : Int) (tg : GameRec) (n : String) (r sv : VRec)
    (o : List (String × String))
    (hk : pyInt kStr = some ki)
    (hg : alookup c (GKey.i ki) = some tg)
    (hv : alookup tg.versions n = some r)
    (hh : r.hashes = none) :
    merge_into_global c [(kStr, ⟨[(n, sv)], o⟩)] = .error .keyErrorHashes := by
  simp only [merge_into_global, mergeGameStep, hk, hg, mergeVersions,
    mergeVersionStep, hv, hh]

theorem merge_into_global_keyerror_missing_hashes_witness :
    merge_into_global [(GKey.i 9, ⟨[("v1", ⟨some "a", none, []⟩)], []⟩)]
        [("9", ⟨[("v1", ⟨some "b", none, []⟩)], []⟩)]
      = .error .keyErrorHashes :=
  merge_into_global_keyerror_missing_hashes
    [(GKey.i 9, ⟨[("v1", ⟨some "a", none, []⟩)], []⟩)]
    "9" 9
    ⟨[("v1", ⟨some "a", none, []⟩)], []⟩
    "v1" ⟨some "a", none, []⟩ ⟨some "b", none, []⟩ []
    (by decide) (by decide) (by decide) (by decide)

/-- C10: when the destination does not exist, the import initializes it with
`db_version` `"0.5.0"` and runs the full copy unconditionally — the source's
`db_version` value is read but never compared, and the mismatch abort can
only arise when the destination exists. -/
theorem import_initializes_dest_without_version_gate (src : SourceDb)
    (vi : String)
    (hvi : get_database_version src.db_version = some vi) :
    mainModel src none = copyAll src initialize_database
    ∧ initialize_database.db_version = [DB_VERSION]
    ∧ DB_VERSION = "0.5.0"
    ∧ ∃ d, mainModel src none = .ok d ∧ d.db_version = ["0.5.0"] := by
  refine ⟨by simp only [mainModel, hvi], rfl, rfl, ?_⟩
  obtain ⟨d, hd, hver⟩ := copyAll_ok src initialize_database
  refine ⟨d, ?_, ?_⟩
  · simp only [mainModel, hvi]
    exact hd
  · rw [hver]
    rfl

theorem import_initializes_dest_without_version_gate_witness :
    mainModel
        ⟨[⟨1, some 5, ["Doom"]⟩], [⟨1, 1, ["1.0"]⟩],
          [⟨1, 1, ("doom.exe", "aaa")⟩], [], ["9.9.9"]⟩ none
      = .ok ⟨⟨[⟨1, some 5, ["Doom"]⟩], 2⟩, ⟨[⟨1, 1, ["1.0"]⟩], 2⟩,
          ⟨[⟨1, 1, ("doom.exe", "aaa")⟩], 2⟩, ⟨[], 1⟩, ["0.5.0"]⟩ := by
  have hm := (import_initializes_dest_without_version_gate
    ⟨[⟨1, some 5, ["Doom"]⟩], [⟨1, 1, ["1.0"]⟩],
      [⟨1, 1, ("doom.exe", "aaa")⟩], [], ["9.9.9"]⟩
    "9.9.9" rfl).1
  exact hm.trans (by decide)

end TurboStage
